import Mathlib

/- Verification of the Minesweeper knowledge-based agent (minesweeper.py):
   shallow embedding of the Sentence class and of the MinesweeperAI
   inference engine, followed by theorems settling the specification
   claims.  Board cells are pairs of integers; sentence counts are
   integers (Python ints).  The while-loop of add_knowledge is modelled
   with explicit fuel because the loop is genuinely partial: on
   inconsistent inputs it does not terminate (see the C2 theorems). -/

abbrev Cell : Type := ℤ × ℤ

/-- One logical statement of the knowledge base: exactly count of the
cells are mines (class Sentence). -/
structure Sentence where
  cells : Finset Cell
  count : ℤ
deriving DecidableEq

/-- Sentence.known_mines: the whole cell set when count equals the number
of cells, otherwise no conclusion. -/
def Sentence.known_mines (s : Sentence) : Option (Finset Cell) :=
  if s.count = (s.cells.card : ℤ) then some s.cells else none

/-- Sentence.known_safes: the whole cell set when count is zero, otherwise
no conclusion. -/
def Sentence.known_safes (s : Sentence) : Option (Finset Cell) :=
  if s.count = 0 then some s.cells else none

/-- Sentence.mark_mine: if the cell is present, remove it and decrement
the count. -/
def Sentence.mark_mine (s : Sentence) (c : Cell) : Sentence :=
  if c ∈ s.cells then ⟨s.cells.erase c, s.count - 1⟩ else s

/-- Sentence.mark_safe: if the cell is present, remove it, count
unchanged. -/
def Sentence.mark_safe (s : Sentence) (c : Cell) : Sentence :=
  if c ∈ s.cells then ⟨s.cells.erase c, s.count⟩ else s

/-- Python truthiness of the value returned by known_mines/known_safes:
None and the empty set are falsy, a nonempty set is truthy. -/
def setTruthy : Option (Finset Cell) → Bool
  | none => false
  | some t => decide t.Nonempty

/-- State of the MinesweeperAI engine. -/
structure MinesweeperAI where
  height : ℕ
  width : ℕ
  moves_made : Finset Cell
  mines : Finset Cell
  safes : Finset Cell
  knowledge : List Sentence
deriving DecidableEq

/-- MinesweeperAI.__init__ with empty sets and empty knowledge base. -/
def MinesweeperAI.init (h w : ℕ) : MinesweeperAI :=
  ⟨h, w, ∅, ∅, ∅, []⟩

/-- MinesweeperAI.mark_mine: add the cell to mines and narrow every
sentence. -/
def MinesweeperAI.mark_mine (st : MinesweeperAI) (c : Cell) : MinesweeperAI :=
  { st with mines := insert c st.mines,
            knowledge := st.knowledge.map (fun s => s.mark_mine c) }

/-- MinesweeperAI.mark_safe: add the cell to safes and narrow every
sentence. -/
def MinesweeperAI.mark_safe (st : MinesweeperAI) (c : Cell) : MinesweeperAI :=
  { st with safes := insert c st.safes,
            knowledge := st.knowledge.map (fun s => s.mark_safe c) }

/- In the deduction loop, a triggering sentence has its whole (nonempty)
cell set marked cell by cell.  Python iterates over an unordered set
copy; marking each cell of the set, in any order, yields the bulk states
below (lemmas mark_safe_all_insert / mark_mine_all_insert prove the
agreement with the one-cell methods). -/

/-- Effect of calling MinesweeperAI.mark_safe once for every cell of cs. -/
def MinesweeperAI.mark_safe_all (st : MinesweeperAI) (cs : Finset Cell) :
    MinesweeperAI :=
  { st with safes := st.safes ∪ cs,
            knowledge := st.knowledge.map
              (fun s => ⟨s.cells \ cs, s.count⟩) }

/-- Effect of calling MinesweeperAI.mark_mine once for every cell of ms. -/
def MinesweeperAI.mark_mine_all (st : MinesweeperAI) (ms : Finset Cell) :
    MinesweeperAI :=
  { st with mines := st.mines ∪ ms,
            knowledge := st.knowledge.map
              (fun s => ⟨s.cells \ ms, s.count - ((s.cells ∩ ms).card : ℤ)⟩) }

/-- The known_safes check of add_knowledge step 4 on the sentence at
index i: when the returned set is truthy, every one of its cells is
marked safe (which also empties the sentence itself). -/
def MinesweeperAI.markStepSafe (st : MinesweeperAI) (i : ℕ) :
    MinesweeperAI × Bool :=
  if setTruthy (st.knowledge.getD i ⟨∅, 0⟩).known_safes
  then (st.mark_safe_all (st.knowledge.getD i ⟨∅, 0⟩).cells, true)
  else (st, false)

/-- The known_mines check on the sentence at index i, run on the state
and flag produced by the known_safes check (the Python code re-reads the
aliased, possibly just narrowed, sentence object). -/
def MinesweeperAI.markStepMine (p : MinesweeperAI × Bool) (i : ℕ) :
    MinesweeperAI × Bool :=
  if setTruthy (p.1.knowledge.getD i ⟨∅, 0⟩).known_mines
  then (p.1.mark_mine_all (p.1.knowledge.getD i ⟨∅, 0⟩).cells, true)
  else p

/-- One iteration of the certainty-extraction phase of the loop, for the
sentence at index i of the knowledge base: the known_safes check and
marking, then the known_mines check and marking on the (possibly just
narrowed) sentence, exactly as in add_knowledge step 4. -/
def MinesweeperAI.markStep (st : MinesweeperAI) (i : ℕ) : MinesweeperAI × Bool :=
  MinesweeperAI.markStepMine (st.markStepSafe i) i

/-- The certainty-extraction phase over a list of indices; the Bool
records whether any sentence triggered (new_info_found so far). -/
def MinesweeperAI.markPassAux :
    MinesweeperAI → List ℕ → MinesweeperAI × Bool
  | st, [] => (st, false)
  | st, i :: rest =>
    let p := st.markStep i
    let q := p.1.markPassAux rest
    (q.1, p.2 || q.2)

/-- The full certainty-extraction phase: one scan over the current
knowledge base (the phase appends nothing, so the length snapshot agrees
with Python's list(self.knowledge) of aliased sentences). -/
def MinesweeperAI.markPhase (st : MinesweeperAI) : MinesweeperAI × Bool :=
  st.markPassAux (List.range st.knowledge.length)

/-- The sentence derived from an ordered pair by the subset rule. -/
def derive (s1 s2 : Sentence) : Sentence :=
  ⟨s1.cells \ s2.cells, s1.count - s2.count⟩

/-- The newly_inferred list of one subset-resolution scan: for every
ordered pair of sentences with distinct values such that s2.cells is a
subset of s1.cells, the derived sentence, kept only when it is not
already in the knowledge base (duplicates inside the scan are kept, as
in the source). -/
def newlyInferred (kb : List Sentence) : List Sentence :=
  kb.flatMap (fun s1 => kb.filterMap (fun s2 =>
    if s1 ≠ s2 ∧ s2.cells ⊆ s1.cells ∧ derive s1 s2 ∉ kb
    then some (derive s1 s2) else none))

/-- The subset-resolution phase: extend the knowledge base with the
newly inferred sentences; the Bool records whether any were added. -/
def MinesweeperAI.inferPhase (st : MinesweeperAI) : MinesweeperAI × Bool :=
  let ni := newlyInferred st.knowledge
  ({ st with knowledge := st.knowledge ++ ni }, decide (ni ≠ []))

/-- One pass of the while-loop of add_knowledge: certainty extraction
then subset resolution; the Bool is new_info_found. -/
def MinesweeperAI.onePass (st : MinesweeperAI) : MinesweeperAI × Bool :=
  let p := st.markPhase
  let q := p.1.inferPhase
  (q.1, p.2 || q.2)

/-- The while-loop with fuel.  The Bool is true when the loop exited
normally (a pass with no new information), false when fuel ran out
before reaching the fixed point. -/
def MinesweeperAI.loop : ℕ → MinesweeperAI → MinesweeperAI × Bool
  | 0, st => (st, false)
  | n + 1, st =>
    let p := st.onePass
    if p.2 then MinesweeperAI.loop n p.1 else (p.1, true)

/-- The in-bounds neighbours of a cell, excluding the cell itself
(the nested ranges of add_knowledge step 3). -/
def nbrs (h w : ℕ) (c : Cell) : Finset Cell :=
  ((Finset.range 3 ×ˢ Finset.range 3).image
      (fun p => (c.1 - 1 + (p.1 : ℤ), c.2 - 1 + (p.2 : ℤ)))).filter
    (fun q => 0 ≤ q.1 ∧ q.1 < (h : ℤ) ∧ 0 ≤ q.2 ∧ q.2 < (w : ℤ) ∧ q ≠ c)

/-- Steps 1-3 of add_knowledge: record the move, mark the cell safe,
append the new sentence about the neighbours. -/
def MinesweeperAI.observeSetup (st : MinesweeperAI) (c : Cell) (count : ℤ) :
    MinesweeperAI :=
  let st1 := { st with moves_made := insert c st.moves_made }
  let st2 := st1.mark_safe c
  { st2 with knowledge :=
      st2.knowledge ++ [⟨nbrs st2.height st2.width c, count⟩] }

/-- MinesweeperAI.add_knowledge, with fuel for the deduction loop. -/
def MinesweeperAI.add_knowledge (st : MinesweeperAI) (fuel : ℕ) (c : Cell)
    (count : ℤ) : MinesweeperAI :=
  (MinesweeperAI.loop fuel (st.observeSetup c count)).1

/-- Whether the deduction loop of an add_knowledge call reaches its fixed
point within the given fuel (true exactly when the Python call returns). -/
def MinesweeperAI.add_knowledge_done (st : MinesweeperAI) (fuel : ℕ) (c : Cell)
    (count : ℤ) : Bool :=
  (MinesweeperAI.loop fuel (st.observeSetup c count)).2

/-- A canonical choice from a finite set of cells (Python iterates a set
in unspecified order and returns the first hit; we choose the
lexicographically least element, a refinement of that behaviour). -/
def pickCell (s : Finset Cell) : Option Cell :=
  if h : s.Nonempty then
    some (ofLex ((s.image (fun c => toLex c)).min' (h.image _)))
  else none

/-- MinesweeperAI.make_safe_move: some known-safe cell not yet played,
or none. -/
def MinesweeperAI.make_safe_move (st : MinesweeperAI) : Option Cell :=
  pickCell (st.safes \ st.moves_made)

/-- The candidate list of make_random_move, in the board scan order of
the source: cells neither played nor known mines. -/
def MinesweeperAI.possible_moves (st : MinesweeperAI) : List Cell :=
  (List.range st.height).flatMap (fun (i : ℕ) =>
    (List.range st.width).filterMap (fun (j : ℕ) =>
      if ((i : ℤ), (j : ℤ)) ∉ st.moves_made ∧ ((i : ℤ), (j : ℤ)) ∉ st.mines
      then some ((i : ℤ), (j : ℤ)) else none))

/-- MinesweeperAI.make_random_move; random.choice is modelled by an
externally supplied index k, reduced modulo the candidate count (a
uniformly distributed k yields a uniformly distributed choice). -/
def MinesweeperAI.make_random_move (st : MinesweeperAI) (k : ℕ) : Option Cell :=
  if st.possible_moves.isEmpty then none
  else some (st.possible_moves.getD (k % st.possible_moves.length) (0, 0))

/-- Call wrapper returning the result together with the state after the
call (the method mutates nothing, which the pair makes checkable). -/
def MinesweeperAI.make_safe_move_call (st : MinesweeperAI) :
    Option Cell × MinesweeperAI :=
  (st.make_safe_move, st)

/-- Call wrapper for make_random_move. -/
def MinesweeperAI.make_random_move_call (st : MinesweeperAI) (k : ℕ) :
    Option Cell × MinesweeperAI :=
  (st.make_random_move k, st)

/-- A cell is inside the board. -/
def inBounds (h w : ℕ) (c : Cell) : Prop :=
  0 ≤ c.1 ∧ c.1 < (h : ℤ) ∧ 0 ≤ c.2 ∧ c.2 < (w : ℤ)

/-- An observation whose reported count is the true adjacent-mine count
of the placement M (the literal hypothesis of the spec's termination
property: nothing keeps the observed cell itself from being a mine). -/
def TrueCountObs (h w : ℕ) (M : Finset Cell) (o : Cell × ℤ) : Prop :=
  inBounds h w o.1 ∧ o.2 = (((nbrs h w o.1) ∩ M).card : ℤ)

/-- A consistent observation: in bounds, true count, and the revealed
cell is not itself a mine (revealing a mine violates the engine contract:
observe reports the cell safe). -/
def ConsistentObs (h w : ℕ) (M : Finset Cell) (o : Cell × ℤ) : Prop :=
  TrueCountObs h w M o ∧ o.1 ∉ M

instance (h w : ℕ) (c : Cell) : Decidable (inBounds h w c) := by
  unfold inBounds
  infer_instance

instance (h w : ℕ) (M : Finset Cell) (o : Cell × ℤ) :
    Decidable (TrueCountObs h w M o) := by
  unfold TrueCountObs
  infer_instance

instance (h w : ℕ) (M : Finset Cell) (o : Cell × ℤ) :
    Decidable (ConsistentObs h w M o) := by
  unfold ConsistentObs
  infer_instance

/-- Feeding a list of observations to a fresh engine, each add_knowledge
call run with the given fuel. -/
def MinesweeperAI.playout (h w fuel : ℕ) (obs : List (Cell × ℤ)) :
    MinesweeperAI :=
  obs.foldl (fun st o => st.add_knowledge fuel o.1 o.2) (MinesweeperAI.init h w)

/-- Soundness invariant with respect to a mine placement M: no known
safe is a mine, every known mine is a mine, and every sentence counts
exactly its true mines. -/
def Sound (M : Finset Cell) (st : MinesweeperAI) : Prop :=
  st.safes ∩ M = ∅ ∧ st.mines ⊆ M ∧
    ∀ s ∈ st.knowledge, s.count = (((s.cells ∩ M).card : ℕ) : ℤ)

/-- The cells occurring in at least one sentence of the knowledge base. -/
def MinesweeperAI.activeCells (st : MinesweeperAI) : Finset Cell :=
  st.knowledge.foldr (fun s acc => s.cells ∪ acc) ∅

/-- All sound sentences over a cell universe A: cells a subset of A and
count the true mine count.  The knowledge base of a consistent engine
lives inside this finite set, which bounds the subset-resolution phase. -/
def soundSentences (M A : Finset Cell) : Finset Sentence :=
  A.powerset.image (fun c => ⟨c, (((c ∩ M).card : ℕ) : ℤ)⟩)

/-- States reachable from a fresh engine by the public operations (the
move queries return the state unchanged). -/
inductive Reachable (h w : ℕ) : MinesweeperAI → Prop where
  | init : Reachable h w (MinesweeperAI.init h w)
  | add (st : MinesweeperAI) (fuel : ℕ) (c : Cell) (count : ℤ) :
      Reachable h w st → Reachable h w (st.add_knowledge fuel c count)
  | mine (st : MinesweeperAI) (c : Cell) :
      Reachable h w st → Reachable h w (st.mark_mine c)
  | safe (st : MinesweeperAI) (c : Cell) :
      Reachable h w st → Reachable h w (st.mark_safe c)

/- Basic lemmas about sentences and truthiness. -/

theorem setTruthy_known_safes (s : Sentence) :
    setTruthy s.known_safes = true ↔ s.count = 0 ∧ s.cells.Nonempty := by
  unfold Sentence.known_safes setTruthy
  by_cases h : s.count = 0 <;> simp [h]

theorem setTruthy_known_mines (s : Sentence) :
    setTruthy s.known_mines = true ↔
      s.count = (s.cells.card : ℤ) ∧ s.cells.Nonempty := by
  unfold Sentence.known_mines setTruthy
  by_cases h : s.count = (s.cells.card : ℤ) <;> simp [h]

theorem Sentence.mark_safe_eq (s : Sentence) (c : Cell) :
    s.mark_safe c = ⟨s.cells.erase c, s.count⟩ := by
  unfold Sentence.mark_safe
  by_cases h : c ∈ s.cells
  · simp [h]
  · simp [h, Finset.erase_eq_of_not_mem h]

theorem Sentence.mark_mine_cells (s : Sentence) (c : Cell) :
    (s.mark_mine c).cells = s.cells.erase c := by
  unfold Sentence.mark_mine
  by_cases h : c ∈ s.cells
  · simp [h]
  · simp [h, Finset.erase_eq_of_not_mem h]

/- Faithfulness of the bulk-marking states to iterated one-cell marking:
marking the cells of insert c cs equals marking c first and then the
rest, so marking a finite set cell by cell, in any order, lands in the
bulk state. -/

theorem mark_safe_all_insert (st : MinesweeperAI) (c : Cell) (cs : Finset Cell) :
    st.mark_safe_all (insert c cs) = (st.mark_safe c).mark_safe_all cs := by
  unfold MinesweeperAI.mark_safe_all MinesweeperAI.mark_safe
  simp only [MinesweeperAI.mk.injEq, List.map_map]
  refine ⟨trivial, trivial, trivial, trivial, ?_, ?_⟩
  · rw [Finset.union_insert, Finset.insert_union]
  · apply List.map_congr_left
    intro s _
    simp only [Function.comp_apply, Sentence.mark_safe_eq, Sentence.mk.injEq]
    refine ⟨?_, trivial⟩
    ext x
    simp only [Finset.mem_sdiff, Finset.mem_insert, Finset.mem_erase]
    tauto

theorem mark_safe_all_empty (st : MinesweeperAI) :
    st.mark_safe_all ∅ = st := by
  unfold MinesweeperAI.mark_safe_all
  cases st with
  | mk h w mm mi sa kb =>
    simp only [MinesweeperAI.mk.injEq, Finset.union_empty, true_and]
    have : ∀ s : Sentence, (⟨s.cells \ ∅, s.count⟩ : Sentence) = s := by
      intro s; simp
    simp [this]

theorem mark_mine_all_insert (st : MinesweeperAI) (c : Cell) (cs : Finset Cell)
    (hc : c ∉ cs) :
    st.mark_mine_all (insert c cs) = (st.mark_mine c).mark_mine_all cs := by
  unfold MinesweeperAI.mark_mine_all MinesweeperAI.mark_mine
  simp only [MinesweeperAI.mk.injEq, List.map_map]
  refine ⟨trivial, trivial, trivial, ?_, trivial, ?_⟩
  · rw [Finset.union_insert, Finset.insert_union]
  · apply List.map_congr_left
    intro s _
    simp only [Function.comp_apply, Sentence.mk.injEq]
    have hcells : ∀ t : Sentence, (s.mark_mine c).cells = s.cells.erase c :=
      fun _ => Sentence.mark_mine_cells s c
    constructor
    · rw [Sentence.mark_mine_cells]
      ext x
      simp only [Finset.mem_sdiff, Finset.mem_insert, Finset.mem_erase]
      tauto
    · unfold Sentence.mark_mine
      by_cases h : c ∈ s.cells
      · simp only [h, if_true]
        have h1 : s.cells ∩ insert c cs = insert c (s.cells.erase c ∩ cs) := by
          ext x
          simp only [Finset.mem_inter, Finset.mem_insert, Finset.mem_erase]
          constructor
          · rintro ⟨hx, hx2 | hx2⟩
            · left; exact hx2
            · right
              refine ⟨⟨?_, hx⟩, hx2⟩
              rintro rfl; exact hc hx2
          · rintro (rfl | ⟨⟨hne, hx⟩, hx2⟩)
            · exact ⟨h, Or.inl rfl⟩
            · exact ⟨hx, Or.inr hx2⟩
        rw [h1, Finset.card_insert_of_not_mem (by simp [hc])]
        push_cast
        ring
      · simp only [h, if_false]
        have h1 : s.cells ∩ insert c cs = s.cells ∩ cs := by
          ext x
          simp only [Finset.mem_inter, Finset.mem_insert]
          constructor
          · rintro ⟨hx, rfl | hx2⟩
            · exact absurd hx h
            · exact ⟨hx, hx2⟩
          · rintro ⟨hx, hx2⟩; exact ⟨hx, Or.inr hx2⟩
        rw [h1]

theorem mark_mine_all_empty (st : MinesweeperAI) :
    st.mark_mine_all ∅ = st := by
  unfold MinesweeperAI.mark_mine_all
  cases st with
  | mk h w mm mi sa kb =>
    simp only [MinesweeperAI.mk.injEq, Finset.union_empty, true_and]
    have : ∀ s : Sentence, (⟨s.cells \ ∅, s.count - ((s.cells ∩ ∅).card : ℤ)⟩ : Sentence) = s := by
      intro s; simp
    simp [this]

/- Membership in the active cell set. -/

theorem mem_activeCells {st : MinesweeperAI} {x : Cell} :
    x ∈ st.activeCells ↔ ∃ s ∈ st.knowledge, x ∈ s.cells := by
  unfold MinesweeperAI.activeCells
  induction st.knowledge with
  | nil => simp
  | cons s rest ih =>
    simp only [List.foldr_cons, Finset.mem_union, ih, List.mem_cons]
    constructor
    · rintro (hx | ⟨t, ht, hxt⟩)
      · exact ⟨s, Or.inl rfl, hx⟩
      · exact ⟨t, Or.inr ht, hxt⟩
    · rintro ⟨t, rfl | ht, hxt⟩
      · exact Or.inl hxt
      · exact Or.inr ⟨t, ht, hxt⟩

/- Active-cell bookkeeping for the bulk marking operations. -/

theorem active_mark_safe_all (st : MinesweeperAI) (cs : Finset Cell) :
    (st.mark_safe_all cs).activeCells = st.activeCells \ cs := by
  ext x
  simp only [mem_activeCells, MinesweeperAI.mark_safe_all, List.mem_map,
    Finset.mem_sdiff]
  constructor
  · rintro ⟨t, ⟨s, hs, rfl⟩, hx⟩
    simp only [Finset.mem_sdiff] at hx
    exact ⟨⟨s, hs, hx.1⟩, hx.2⟩
  · rintro ⟨⟨s, hs, hx⟩, hxcs⟩
    exact ⟨⟨s.cells \ cs, s.count⟩, ⟨s, hs, rfl⟩, Finset.mem_sdiff.mpr ⟨hx, hxcs⟩⟩

theorem active_mark_mine_all (st : MinesweeperAI) (ms : Finset Cell) :
    (st.mark_mine_all ms).activeCells = st.activeCells \ ms := by
  ext x
  simp only [mem_activeCells, MinesweeperAI.mark_mine_all, List.mem_map,
    Finset.mem_sdiff]
  constructor
  · rintro ⟨t, ⟨s, hs, rfl⟩, hx⟩
    simp only [Finset.mem_sdiff] at hx
    exact ⟨⟨s, hs, hx.1⟩, hx.2⟩
  · rintro ⟨⟨s, hs, hx⟩, hxms⟩
    exact ⟨⟨s.cells \ ms, s.count - ((s.cells ∩ ms).card : ℤ)⟩, ⟨s, hs, rfl⟩,
      Finset.mem_sdiff.mpr ⟨hx, hxms⟩⟩

theorem cells_subset_active {st : MinesweeperAI} {s : Sentence}
    (hs : s ∈ st.knowledge) : s.cells ⊆ st.activeCells := by
  intro x hx
  exact mem_activeCells.mpr ⟨s, hs, hx⟩

/- Soundness is preserved by the marking operations under the conditions
that the deduction loop guarantees at each trigger. -/

theorem sound_safe_trigger {M : Finset Cell} {st : MinesweeperAI} {s : Sentence}
    (hInv : Sound M st) (hs : s ∈ st.knowledge) (h0 : s.count = 0) :
    s.cells ∩ M = ∅ := by
  have := hInv.2.2 s hs
  rw [h0] at this
  have hcard : (s.cells ∩ M).card = 0 := by exact_mod_cast this.symm
  exact Finset.card_eq_zero.mp hcard

theorem sound_mine_trigger {M : Finset Cell} {st : MinesweeperAI} {s : Sentence}
    (hInv : Sound M st) (hs : s ∈ st.knowledge)
    (h0 : s.count = (s.cells.card : ℤ)) : s.cells ⊆ M := by
  have := hInv.2.2 s hs
  rw [h0] at this
  have hcard : s.cells.card = (s.cells ∩ M).card := by exact_mod_cast this
  have hsub : s.cells ∩ M ⊆ s.cells := Finset.inter_subset_left
  have : s.cells ∩ M = s.cells :=
    (Finset.eq_of_subset_of_card_le hsub (le_of_eq hcard)).symm ▸ rfl
  intro x hx
  have hx2 : x ∈ s.cells ∩ M := by
    rw [Finset.eq_of_subset_of_card_le hsub (le_of_eq hcard)]
    exact hx
  exact (Finset.mem_inter.mp hx2).2

theorem sound_mark_safe_all {M : Finset Cell} {st : MinesweeperAI}
    {cs : Finset Cell} (hInv : Sound M st) (hcs : cs ∩ M = ∅) :
    Sound M (st.mark_safe_all cs) := by
  obtain ⟨hsa, hmi, hkb⟩ := hInv
  have hdisj : ∀ x ∈ M, x ∉ cs := by
    intro x hxM hxcs
    have : x ∈ cs ∩ M := Finset.mem_inter.mpr ⟨hxcs, hxM⟩
    simp [hcs] at this
  refine ⟨?_, hmi, ?_⟩
  · ext x
    simp only [MinesweeperAI.mark_safe_all, Finset.mem_inter, Finset.mem_union,
      Finset.not_mem_empty, iff_false]
    rintro ⟨hx1 | hx1, hx2⟩
    · have : x ∈ st.safes ∩ M := Finset.mem_inter.mpr ⟨hx1, hx2⟩
      simp [hsa] at this
    · exact hdisj x hx2 hx1
  · intro t ht
    simp only [MinesweeperAI.mark_safe_all, List.mem_map] at ht
    obtain ⟨s, hs, rfl⟩ := ht
    have heq : s.cells \ cs ∩ M = s.cells ∩ M := by
      ext x
      simp only [Finset.mem_inter, Finset.mem_sdiff]
      constructor
      · rintro ⟨⟨h1, _⟩, h2⟩; exact ⟨h1, h2⟩
      · rintro ⟨h1, h2⟩; exact ⟨⟨h1, hdisj x h2⟩, h2⟩
    simpa [heq] using hkb s hs

theorem sound_mark_mine_all {M : Finset Cell} {st : MinesweeperAI}
    {ms : Finset Cell} (hInv : Sound M st) (hms : ms ⊆ M) :
    Sound M (st.mark_mine_all ms) := by
  obtain ⟨hsa, hmi, hkb⟩ := hInv
  refine ⟨hsa, ?_, ?_⟩
  · simp only [MinesweeperAI.mark_mine_all]
    exact Finset.union_subset hmi hms
  · intro t ht
    simp only [MinesweeperAI.mark_mine_all, List.mem_map] at ht
    obtain ⟨s, hs, rfl⟩ := ht
    have heq : s.cells \ ms ∩ M = (s.cells ∩ M) \ ms := by
      ext x
      simp only [Finset.mem_inter, Finset.mem_sdiff]
      tauto
    have heq2 : s.cells ∩ M ∩ ms = s.cells ∩ ms := by
      ext x
      simp only [Finset.mem_inter]
      constructor
      · rintro ⟨⟨h1, _⟩, h2⟩; exact ⟨h1, h2⟩
      · rintro ⟨h1, h2⟩; exact ⟨⟨h1, hms h2⟩, h2⟩
    have hadd : ((s.cells ∩ M) \ ms).card + (s.cells ∩ M ∩ ms).card
        = (s.cells ∩ M).card := Finset.card_sdiff_add_card_inter _ _
    rw [heq2] at hadd
    have hc := hkb s hs
    simp only []
    rw [heq]
    omega

/- Component facts for one certainty-extraction step: move set, board
size and knowledge-base length are untouched; safes and mines only grow. -/

theorem markStepSafe_spec (st : MinesweeperAI) (i : ℕ) :
    (st.markStepSafe i).1.moves_made = st.moves_made ∧
    (st.markStepSafe i).1.height = st.height ∧
    (st.markStepSafe i).1.width = st.width ∧
    st.safes ⊆ (st.markStepSafe i).1.safes ∧
    st.mines ⊆ (st.markStepSafe i).1.mines ∧
    (st.markStepSafe i).1.knowledge.length = st.knowledge.length := by
  unfold MinesweeperAI.markStepSafe MinesweeperAI.mark_safe_all
  split
  · exact ⟨rfl, rfl, rfl, Finset.subset_union_left, subset_rfl, by simp⟩
  · exact ⟨rfl, rfl, rfl, subset_rfl, subset_rfl, rfl⟩

theorem markStepMine_spec (p : MinesweeperAI × Bool) (i : ℕ) :
    (MinesweeperAI.markStepMine p i).1.moves_made = p.1.moves_made ∧
    (MinesweeperAI.markStepMine p i).1.height = p.1.height ∧
    (MinesweeperAI.markStepMine p i).1.width = p.1.width ∧
    p.1.safes ⊆ (MinesweeperAI.markStepMine p i).1.safes ∧
    p.1.mines ⊆ (MinesweeperAI.markStepMine p i).1.mines ∧
    (MinesweeperAI.markStepMine p i).1.knowledge.length
      = p.1.knowledge.length := by
  unfold MinesweeperAI.markStepMine MinesweeperAI.mark_mine_all
  split
  · exact ⟨rfl, rfl, rfl, subset_rfl, Finset.subset_union_left, by simp⟩
  · exact ⟨rfl, rfl, rfl, subset_rfl, subset_rfl, rfl⟩

theorem markStep_spec (st : MinesweeperAI) (i : ℕ) :
    (st.markStep i).1.moves_made = st.moves_made ∧
    (st.markStep i).1.height = st.height ∧
    (st.markStep i).1.width = st.width ∧
    st.safes ⊆ (st.markStep i).1.safes ∧
    st.mines ⊆ (st.markStep i).1.mines ∧
    (st.markStep i).1.knowledge.length = st.knowledge.length := by
  have h1 := markStepSafe_spec st i
  have h2 := markStepMine_spec (st.markStepSafe i) i
  unfold MinesweeperAI.markStep
  exact ⟨h2.1.trans h1.1, h2.2.1.trans h1.2.1, h2.2.2.1.trans h1.2.2.1,
    h1.2.2.2.1.trans h2.2.2.2.1, h1.2.2.2.2.1.trans h2.2.2.2.2.1,
    h2.2.2.2.2.2.trans h1.2.2.2.2.2⟩

/- A triggering sentence really is a member of the knowledge base: the
out-of-range default of getD is the empty sentence, which is falsy. -/

theorem getD_mem_of_nonempty {kb : List Sentence} {i : ℕ}
    (h : (kb.getD i ⟨∅, 0⟩).cells.Nonempty) : kb.getD i ⟨∅, 0⟩ ∈ kb := by
  by_cases hi : i < kb.length
  · rw [List.getD_eq_getElem kb ⟨∅, 0⟩ hi]
    exact List.getElem_mem hi
  · rw [List.getD_eq_default kb ⟨∅, 0⟩ (le_of_not_lt hi)] at h
    simp at h

theorem markStepSafe_sound {M : Finset Cell} {st : MinesweeperAI} (i : ℕ)
    (hInv : Sound M st) : Sound M (st.markStepSafe i).1 := by
  unfold MinesweeperAI.markStepSafe
  split
  · next htr =>
    rw [setTruthy_known_safes] at htr
    have hmem := getD_mem_of_nonempty htr.2
    exact sound_mark_safe_all hInv (sound_safe_trigger hInv hmem htr.1)
  · exact hInv

theorem markStepMine_sound {M : Finset Cell} {p : MinesweeperAI × Bool} (i : ℕ)
    (hInv : Sound M p.1) : Sound M (MinesweeperAI.markStepMine p i).1 := by
  unfold MinesweeperAI.markStepMine
  split
  · next htr =>
    rw [setTruthy_known_mines] at htr
    have hmem := getD_mem_of_nonempty htr.2
    exact sound_mark_mine_all hInv (sound_mine_trigger hInv hmem htr.1)
  · exact hInv

theorem markStep_sound {M : Finset Cell} {st : MinesweeperAI} (i : ℕ)
    (hInv : Sound M st) : Sound M (st.markStep i).1 :=
  markStepMine_sound i (markStepSafe_sound i hInv)

theorem markStepSafe_active (st : MinesweeperAI) (i : ℕ) :
    (st.markStepSafe i).1.activeCells ⊆ st.activeCells := by
  unfold MinesweeperAI.markStepSafe
  split
  · rw [active_mark_safe_all]
    exact Finset.sdiff_subset
  · exact subset_rfl

theorem markStepMine_active (p : MinesweeperAI × Bool) (i : ℕ) :
    (MinesweeperAI.markStepMine p i).1.activeCells ⊆ p.1.activeCells := by
  unfold MinesweeperAI.markStepMine
  split
  · rw [active_mark_mine_all]
    exact Finset.sdiff_subset
  · exact subset_rfl

theorem markStep_active (st : MinesweeperAI) (i : ℕ) :
    (st.markStep i).1.activeCells ⊆ st.activeCells :=
  (markStepMine_active (st.markStepSafe i) i).trans (markStepSafe_active st i)

theorem markStepSafe_noflag {st : MinesweeperAI} {i : ℕ}
    (h : (st.markStepSafe i).2 = false) : st.markStepSafe i = (st, false) := by
  unfold MinesweeperAI.markStepSafe at h ⊢
  split at h
  · simp at h
  · next hc => rw [if_neg hc]

theorem markStepMine_noflag {p : MinesweeperAI × Bool} {i : ℕ}
    (h : (MinesweeperAI.markStepMine p i).2 = false) :
    MinesweeperAI.markStepMine p i = p := by
  unfold MinesweeperAI.markStepMine at h ⊢
  split at h
  · simp at h
  · next hc => rw [if_neg hc]

theorem markStep_noflag {st : MinesweeperAI} {i : ℕ}
    (h : (st.markStep i).2 = false) : st.markStep i = (st, false) := by
  unfold MinesweeperAI.markStep at h ⊢
  have h2 := markStepMine_noflag h
  rw [h2] at h ⊢
  exact markStepSafe_noflag h

theorem markStepSafe_flag_ssub {st : MinesweeperAI} {i : ℕ}
    (h : (st.markStepSafe i).2 = true) :
    (st.markStepSafe i).1.activeCells ⊂ st.activeCells := by
  unfold MinesweeperAI.markStepSafe at h ⊢
  split at h
  · next htr =>
    rw [setTruthy_known_safes] at htr
    have hmem := getD_mem_of_nonempty htr.2
    rw [if_pos (by rw [setTruthy_known_safes]; exact htr), active_mark_safe_all]
    exact Finset.sdiff_ssubset (cells_subset_active hmem) htr.2
  · simp at h

theorem markStepMine_flag_ssub {p : MinesweeperAI × Bool} {i : ℕ}
    (hp : p.2 = false) (h : (MinesweeperAI.markStepMine p i).2 = true) :
    (MinesweeperAI.markStepMine p i).1.activeCells ⊂ p.1.activeCells := by
  unfold MinesweeperAI.markStepMine at h ⊢
  split at h
  · next htr =>
    rw [setTruthy_known_mines] at htr
    have hmem := getD_mem_of_nonempty htr.2
    rw [if_pos (by rw [setTruthy_known_mines]; exact htr), active_mark_mine_all]
    exact Finset.sdiff_ssubset (cells_subset_active hmem) htr.2
  · rw [hp] at h; simp at h

theorem markStep_flag_ssub {st : MinesweeperAI} {i : ℕ}
    (h : (st.markStep i).2 = true) :
    (st.markStep i).1.activeCells ⊂ st.activeCells := by
  unfold MinesweeperAI.markStep at h ⊢
  by_cases h1 : (st.markStepSafe i).2 = true
  · exact (markStepMine_active _ i).trans_ssubset (markStepSafe_flag_ssub h1)
  · have h1f : (st.markStepSafe i).2 = false := by
      cases hb : (st.markStepSafe i).2
      · rfl
      · exact absurd hb h1
    exact (markStepMine_flag_ssub h1f h).trans_subset (markStepSafe_active st i)

/- The certainty-extraction phase: lemmas by induction on the index
list. -/

theorem markPassAux_spec (idxs : List ℕ) (st : MinesweeperAI) :
    (st.markPassAux idxs).1.moves_made = st.moves_made ∧
    (st.markPassAux idxs).1.height = st.height ∧
    (st.markPassAux idxs).1.width = st.width ∧
    st.safes ⊆ (st.markPassAux idxs).1.safes ∧
    st.mines ⊆ (st.markPassAux idxs).1.mines ∧
    (st.markPassAux idxs).1.knowledge.length = st.knowledge.length := by
  induction idxs generalizing st with
  | nil => exact ⟨rfl, rfl, rfl, subset_rfl, subset_rfl, rfl⟩
  | cons i rest ih =>
    simp only [MinesweeperAI.markPassAux]
    have h1 := markStep_spec st i
    have h2 := ih (st.markStep i).1
    exact ⟨h2.1.trans h1.1, h2.2.1.trans h1.2.1, h2.2.2.1.trans h1.2.2.1,
      h1.2.2.2.1.trans h2.2.2.2.1, h1.2.2.2.2.1.trans h2.2.2.2.2.1,
      h2.2.2.2.2.2.trans h1.2.2.2.2.2⟩

theorem markPassAux_sound {M : Finset Cell} (idxs : List ℕ)
    {st : MinesweeperAI} (hInv : Sound M st) :
    Sound M (st.markPassAux idxs).1 := by
  induction idxs generalizing st with
  | nil => exact hInv
  | cons i rest ih =>
    simp only [MinesweeperAI.markPassAux]
    exact ih (markStep_sound i hInv)

theorem markPassAux_active (idxs : List ℕ) (st : MinesweeperAI) :
    (st.markPassAux idxs).1.activeCells ⊆ st.activeCells := by
  induction idxs generalizing st with
  | nil => exact subset_rfl
  | cons i rest ih =>
    simp only [MinesweeperAI.markPassAux]
    exact (ih (st.markStep i).1).trans (markStep_active st i)

theorem markPassAux_noflag {idxs : List ℕ} {st : MinesweeperAI}
    (h : (st.markPassAux idxs).2 = false) : (st.markPassAux idxs).1 = st := by
  induction idxs generalizing st with
  | nil => rfl
  | cons i rest ih =>
    simp only [MinesweeperAI.markPassAux, Bool.or_eq_false_iff] at h
    simp only [MinesweeperAI.markPassAux]
    rw [ih h.2, (markStep_noflag h.1 : st.markStep i = (st, false))]

theorem markPassAux_flag_ssub {idxs : List ℕ} {st : MinesweeperAI}
    (h : (st.markPassAux idxs).2 = true) :
    (st.markPassAux idxs).1.activeCells ⊂ st.activeCells := by
  induction idxs generalizing st with
  | nil => simp [MinesweeperAI.markPassAux] at h
  | cons i rest ih =>
    simp only [MinesweeperAI.markPassAux, Bool.or_eq_true] at h
    simp only [MinesweeperAI.markPassAux]
    by_cases h1 : (st.markStep i).2 = true
    · exact (markPassAux_active rest (st.markStep i).1).trans_ssubset
        (markStep_flag_ssub h1)
    · have h1f : (st.markStep i).2 = false := by
        cases hb : (st.markStep i).2
        · rfl
        · exact absurd hb h1
      have h2 : (((st.markStep i).1.markPassAux rest)).2 = true := by
        rcases h with h | h
        · exact absurd h h1
        · exact h
      rw [(markStep_noflag h1f : st.markStep i = (st, false))] at h2 ⊢
      exact ih h2

theorem markPhase_spec (st : MinesweeperAI) :
    (st.markPhase).1.moves_made = st.moves_made ∧
    (st.markPhase).1.height = st.height ∧
    (st.markPhase).1.width = st.width ∧
    st.safes ⊆ (st.markPhase).1.safes ∧
    st.mines ⊆ (st.markPhase).1.mines ∧
    (st.markPhase).1.knowledge.length = st.knowledge.length :=
  markPassAux_spec _ st

theorem markPhase_sound {M : Finset Cell} {st : MinesweeperAI}
    (hInv : Sound M st) : Sound M (st.markPhase).1 :=
  markPassAux_sound _ hInv

theorem markPhase_active (st : MinesweeperAI) :
    (st.markPhase).1.activeCells ⊆ st.activeCells :=
  markPassAux_active _ st

theorem markPhase_noflag {st : MinesweeperAI}
    (h : (st.markPhase).2 = false) : (st.markPhase).1 = st :=
  markPassAux_noflag h

theorem markPhase_flag_ssub {st : MinesweeperAI}
    (h : (st.markPhase).2 = true) :
    (st.markPhase).1.activeCells ⊂ st.activeCells :=
  markPassAux_flag_ssub h

/- The subset-resolution phase. -/

theorem mem_newlyInferred {kb : List Sentence} {t : Sentence} :
    t ∈ newlyInferred kb ↔
      ∃ s1 ∈ kb, ∃ s2 ∈ kb, s1 ≠ s2 ∧ s2.cells ⊆ s1.cells ∧
        derive s1 s2 ∉ kb ∧ t = derive s1 s2 := by
  unfold newlyInferred
  simp only [List.mem_flatMap, List.mem_filterMap]
  constructor
  · rintro ⟨s1, hs1, s2, hs2, hif⟩
    split at hif
    · next hcond =>
      cases hif
      exact ⟨s1, hs1, s2, hs2, hcond.1, hcond.2.1, hcond.2.2, rfl⟩
    · cases hif
  · rintro ⟨s1, hs1, s2, hs2, hne, hsub, hnotin, rfl⟩
    refine ⟨s1, hs1, s2, hs2, ?_⟩
    rw [if_pos ⟨hne, hsub, hnotin⟩]

theorem derive_count_sound {M : Finset Cell} {s1 s2 : Sentence}
    (hsub : s2.cells ⊆ s1.cells)
    (h1 : s1.count = (((s1.cells ∩ M).card : ℕ) : ℤ))
    (h2 : s2.count = (((s2.cells ∩ M).card : ℕ) : ℤ)) :
    (derive s1 s2).count = ((((derive s1 s2).cells ∩ M).card : ℕ) : ℤ) := by
  unfold derive
  simp only []
  have heq : s1.cells \ s2.cells ∩ M = (s1.cells ∩ M) \ (s2.cells ∩ M) := by
    ext x
    simp only [Finset.mem_inter, Finset.mem_sdiff]
    tauto
  have hsub2 : s2.cells ∩ M ⊆ s1.cells ∩ M := by
    intro x hx
    rw [Finset.mem_inter] at hx ⊢
    exact ⟨hsub hx.1, hx.2⟩
  have hcard := Finset.card_sdiff hsub2
  have hle := Finset.card_le_card hsub2
  rw [heq, h1, h2, hcard]
  omega

theorem inferPhase_sound {M : Finset Cell} {st : MinesweeperAI}
    (hInv : Sound M st) : Sound M (st.inferPhase).1 := by
  obtain ⟨hsa, hmi, hkb⟩ := hInv
  refine ⟨hsa, hmi, ?_⟩
  intro t ht
  simp only [MinesweeperAI.inferPhase, List.mem_append] at ht
  rcases ht with ht | ht
  · exact hkb t ht
  · rw [mem_newlyInferred] at ht
    obtain ⟨s1, hs1, s2, hs2, _, hsub, _, rfl⟩ := ht
    exact derive_count_sound hsub (hkb s1 hs1) (hkb s2 hs2)

theorem inferPhase_active (st : MinesweeperAI) :
    (st.inferPhase).1.activeCells = st.activeCells := by
  apply Finset.Subset.antisymm
  · intro x hx
    rw [mem_activeCells] at hx
    obtain ⟨s, hs, hxs⟩ := hx
    simp only [MinesweeperAI.inferPhase, List.mem_append] at hs
    rcases hs with hs | hs
    · exact mem_activeCells.mpr ⟨s, hs, hxs⟩
    · rw [mem_newlyInferred] at hs
      obtain ⟨s1, hs1, _, _, _, _, _, rfl⟩ := hs
      have : x ∈ s1.cells := (Finset.mem_sdiff.mp hxs).1
      exact mem_activeCells.mpr ⟨s1, hs1, this⟩
  · intro x hx
    rw [mem_activeCells] at hx
    obtain ⟨s, hs, hxs⟩ := hx
    refine mem_activeCells.mpr ⟨s, ?_, hxs⟩
    simp only [MinesweeperAI.inferPhase, List.mem_append]
    exact Or.inl hs

theorem inferPhase_spec (st : MinesweeperAI) :
    (st.inferPhase).1.moves_made = st.moves_made ∧
    (st.inferPhase).1.height = st.height ∧
    (st.inferPhase).1.width = st.width ∧
    (st.inferPhase).1.safes = st.safes ∧
    (st.inferPhase).1.mines = st.mines ∧
    (st.inferPhase).1.knowledge = st.knowledge ++ newlyInferred st.knowledge :=
  ⟨rfl, rfl, rfl, rfl, rfl, rfl⟩

theorem inferPhase_flag {st : MinesweeperAI} :
    (st.inferPhase).2 = true ↔ newlyInferred st.knowledge ≠ [] := by
  simp [MinesweeperAI.inferPhase]

/- One pass of the loop. -/

theorem onePass_sound {M : Finset Cell} {st : MinesweeperAI}
    (hInv : Sound M st) : Sound M (st.onePass).1 :=
  inferPhase_sound (markPhase_sound hInv)

theorem onePass_active (st : MinesweeperAI) :
    (st.onePass).1.activeCells ⊆ st.activeCells := by
  unfold MinesweeperAI.onePass
  simp only []
  rw [inferPhase_active]
  exact markPhase_active st

theorem onePass_spec (st : MinesweeperAI) :
    (st.onePass).1.moves_made = st.moves_made ∧
    (st.onePass).1.height = st.height ∧
    (st.onePass).1.width = st.width ∧
    st.safes ⊆ (st.onePass).1.safes ∧
    st.mines ⊆ (st.onePass).1.mines := by
  unfold MinesweeperAI.onePass
  simp only []
  have h1 := markPhase_spec st
  have h2 := inferPhase_spec (st.markPhase).1
  refine ⟨h2.1.trans h1.1, h2.2.1.trans h1.2.1, h2.2.2.1.trans h1.2.2.1, ?_, ?_⟩
  · rw [h2.2.2.2.1]; exact h1.2.2.2.1
  · rw [h2.2.2.2.2.1]; exact h1.2.2.2.2.1

/- The loop with fuel. -/

theorem loop_succ (n : ℕ) (st : MinesweeperAI) :
    MinesweeperAI.loop (n + 1) st =
      if (st.onePass).2 = true then MinesweeperAI.loop n (st.onePass).1
      else ((st.onePass).1, true) := by
  simp only [MinesweeperAI.loop]

theorem loop_sound {M : Finset Cell} (n : ℕ) {st : MinesweeperAI}
    (hInv : Sound M st) : Sound M (MinesweeperAI.loop n st).1 := by
  induction n generalizing st with
  | zero => exact hInv
  | succ n ih =>
    rw [loop_succ]
    by_cases h : (st.onePass).2 = true
    · rw [if_pos h]; exact ih (onePass_sound hInv)
    · rw [if_neg h]; exact onePass_sound hInv

theorem loop_spec (n : ℕ) (st : MinesweeperAI) :
    (MinesweeperAI.loop n st).1.moves_made = st.moves_made ∧
    (MinesweeperAI.loop n st).1.height = st.height ∧
    (MinesweeperAI.loop n st).1.width = st.width ∧
    st.safes ⊆ (MinesweeperAI.loop n st).1.safes ∧
    st.mines ⊆ (MinesweeperAI.loop n st).1.mines := by
  induction n generalizing st with
  | zero => exact ⟨rfl, rfl, rfl, subset_rfl, subset_rfl⟩
  | succ n ih =>
    rw [loop_succ]
    have h1 := onePass_spec st
    by_cases h : (st.onePass).2 = true
    · rw [if_pos h]
      have h2 := ih (st.onePass).1
      exact ⟨h2.1.trans h1.1, h2.2.1.trans h1.2.1, h2.2.2.1.trans h1.2.2.1,
        h1.2.2.2.1.trans h2.2.2.2.1, h1.2.2.2.2.trans h2.2.2.2.2⟩
    · rw [if_neg h]
      exact h1

theorem loop_done_stable {n : ℕ} {st : MinesweeperAI}
    (h : (MinesweeperAI.loop n st).2 = true) :
    ∀ m, n ≤ m → MinesweeperAI.loop m st = MinesweeperAI.loop n st := by
  induction n generalizing st with
  | zero => simp [MinesweeperAI.loop] at h
  | succ n ih =>
    intro m hm
    obtain ⟨m', rfl⟩ : ∃ m', m = m' + 1 := ⟨m - 1, by omega⟩
    rw [loop_succ] at h
    rw [loop_succ, loop_succ]
    by_cases hb : (st.onePass).2 = true
    · rw [if_pos hb] at h ⊢
      rw [if_pos hb]
      exact ih h m' (by omega)
    · rw [if_neg hb] at h ⊢
      rw [if_neg hb]

/- The termination measure for consistent states: the number of active
cells, in lexicographic combination with the number of sound sentences
over the active cells that the knowledge base does not yet contain. -/

theorem mem_soundSentences {M A : Finset Cell} {s : Sentence} :
    s ∈ soundSentences M A ↔
      s.cells ⊆ A ∧ s.count = (((s.cells ∩ M).card : ℕ) : ℤ) := by
  unfold soundSentences
  simp only [Finset.mem_image, Finset.mem_powerset]
  constructor
  · rintro ⟨c, hc, rfl⟩
    exact ⟨hc, rfl⟩
  · rintro ⟨hc, hcount⟩
    refine ⟨s.cells, hc, ?_⟩
    have hrw : (⟨s.cells, (((s.cells ∩ M).card : ℕ) : ℤ)⟩ : Sentence)
        = ⟨s.cells, s.count⟩ := by rw [hcount]
    rw [hrw]

def kbMeasure (M A0 : Finset Cell) (st : MinesweeperAI) : ℕ :=
  st.activeCells.card * (A0.powerset.card + 1) +
    (soundSentences M st.activeCells \ st.knowledge.toFinset).card

theorem soundSentences_card_le {M A A0 : Finset Cell} (h : A ⊆ A0) :
    (soundSentences M A).card ≤ A0.powerset.card := by
  calc (soundSentences M A).card ≤ A.powerset.card := Finset.card_image_le
    _ ≤ A0.powerset.card :=
        Finset.card_le_card (Finset.powerset_mono.mpr h)

theorem onePass_measure {M A0 : Finset Cell} {st : MinesweeperAI}
    (hInv : Sound M st) (hA : st.activeCells ⊆ A0)
    (hflag : (st.onePass).2 = true) :
    kbMeasure M A0 (st.onePass).1 < kbMeasure M A0 st := by
  have hact : (st.onePass).1.activeCells = (st.markPhase).1.activeCells := by
    unfold MinesweeperAI.onePass
    simp only []
    rw [inferPhase_active]
  by_cases h1 : (st.markPhase).2 = true
  · -- a certainty was extracted: the active cell set strictly shrinks
    have hssub : (st.onePass).1.activeCells ⊂ st.activeCells := by
      rw [hact]; exact markPhase_flag_ssub h1
    have hcard : (st.onePass).1.activeCells.card < st.activeCells.card :=
      Finset.card_lt_card hssub
    have hr : (soundSentences M (st.onePass).1.activeCells \
        (st.onePass).1.knowledge.toFinset).card ≤ A0.powerset.card := by
      calc (soundSentences M (st.onePass).1.activeCells \
            (st.onePass).1.knowledge.toFinset).card
          ≤ (soundSentences M (st.onePass).1.activeCells).card :=
            Finset.card_le_card (Finset.sdiff_subset)
        _ ≤ A0.powerset.card :=
            soundSentences_card_le (hssub.subset.trans hA)
    unfold kbMeasure
    calc (st.onePass).1.activeCells.card * (A0.powerset.card + 1) +
          (soundSentences M (st.onePass).1.activeCells \
            (st.onePass).1.knowledge.toFinset).card
        < ((st.onePass).1.activeCells.card + 1) * (A0.powerset.card + 1) := by
          nlinarith
      _ ≤ st.activeCells.card * (A0.powerset.card + 1) :=
          Nat.mul_le_mul_right _ hcard
      _ ≤ st.activeCells.card * (A0.powerset.card + 1) +
          (soundSentences M st.activeCells \ st.knowledge.toFinset).card :=
          Nat.le_add_right _ _
  · -- no certainty: the mark phase is the identity and resolution added
    -- at least one sentence that was not in the knowledge base
    have h1f : (st.markPhase).2 = false := by
      cases hb : (st.markPhase).2
      · rfl
      · exact absurd hb h1
    have hid : (st.markPhase).1 = st := markPhase_noflag h1f
    have h2 : ((st.markPhase).1.inferPhase).2 = true := by
      unfold MinesweeperAI.onePass at hflag
      simp only [] at hflag
      rcases Bool.or_eq_true_iff.mp hflag with h | h
      · exact absurd h h1
      · exact h
    rw [hid] at h2
    have hni : newlyInferred st.knowledge ≠ [] := inferPhase_flag.mp h2
    obtain ⟨t, ht⟩ := List.exists_mem_of_ne_nil _ hni
    obtain ⟨s1, hs1, s2, hs2, hne12, hsub, hnotin, rfl⟩ :=
      mem_newlyInferred.mp ht
    have hts : derive s1 s2 ∈ soundSentences M st.activeCells := by
      rw [mem_soundSentences]
      constructor
      · intro x hx
        exact cells_subset_active hs1 (Finset.mem_sdiff.mp hx).1
      · exact derive_count_sound hsub (hInv.2.2 s1 hs1) (hInv.2.2 s2 hs2)
    have honekb : (st.onePass).1.knowledge =
        st.knowledge ++ newlyInferred st.knowledge := by
      unfold MinesweeperAI.onePass
      simp only []
      rw [hid]
      rfl
    have hone_active : (st.onePass).1.activeCells = st.activeCells := by
      rw [hact, hid]
    have hsdiff : soundSentences M st.activeCells \
          (st.onePass).1.knowledge.toFinset
        ⊂ soundSentences M st.activeCells \ st.knowledge.toFinset := by
      constructor
      · intro x hx
        rw [Finset.mem_sdiff] at hx ⊢
        refine ⟨hx.1, ?_⟩
        intro hxkb
        exact hx.2 (by
          rw [honekb, List.toFinset_append, Finset.mem_union]
          exact Or.inl hxkb)
      · intro hsub2
        have hmem : derive s1 s2 ∈ soundSentences M st.activeCells \
            st.knowledge.toFinset := by
          rw [Finset.mem_sdiff]
          exact ⟨hts, fun hk => hnotin (List.mem_toFinset.mp hk)⟩
        have := hsub2 hmem
        rw [Finset.mem_sdiff, honekb, List.toFinset_append] at this
        exact this.2 (Finset.mem_union_right _ (List.mem_toFinset.mpr ht))
    unfold kbMeasure
    rw [hone_active]
    exact Nat.add_lt_add_left (Finset.card_lt_card hsdiff) _

theorem loop_term_aux {M A0 : Finset Cell} :
    ∀ k (st : MinesweeperAI), Sound M st → st.activeCells ⊆ A0 →
      kbMeasure M A0 st ≤ k → ∃ n, (MinesweeperAI.loop n st).2 = true := by
  intro k
  induction k with
  | zero =>
    intro st hInv hA hk
    by_cases h : (st.onePass).2 = true
    · have := onePass_measure hInv hA h
      omega
    · refine ⟨1, ?_⟩
      rw [loop_succ, if_neg h]
  | succ k ih =>
    intro st hInv hA hk
    by_cases h : (st.onePass).2 = true
    · have hlt := onePass_measure hInv hA h
      obtain ⟨n, hn⟩ := ih (st.onePass).1 (onePass_sound hInv)
        ((onePass_active st).trans hA) (by omega)
      refine ⟨n + 1, ?_⟩
      rw [loop_succ, if_pos h]
      exact hn
    · refine ⟨1, ?_⟩
      rw [loop_succ, if_neg h]

/-- Main termination theorem: from any state sound for some placement,
the deduction loop reaches its fixed point after finitely many passes. -/
theorem loop_terminates {M : Finset Cell} {st : MinesweeperAI}
    (hInv : Sound M st) : ∃ n, (MinesweeperAI.loop n st).2 = true :=
  loop_term_aux (kbMeasure M st.activeCells st) st hInv subset_rfl le_rfl

/- Soundness through an observation. -/

theorem sound_mark_safe_single {M : Finset Cell} {st : MinesweeperAI} {c : Cell}
    (hInv : Sound M st) (hc : c ∉ M) : Sound M (st.mark_safe c) := by
  obtain ⟨hsa, hmi, hkb⟩ := hInv
  refine ⟨?_, hmi, ?_⟩
  · ext x
    simp only [MinesweeperAI.mark_safe, Finset.mem_inter, Finset.mem_insert,
      Finset.not_mem_empty, iff_false]
    rintro ⟨rfl | hx1, hx2⟩
    · exact hc hx2
    · have : x ∈ st.safes ∩ M := Finset.mem_inter.mpr ⟨hx1, hx2⟩
      simp [hsa] at this
  · intro t ht
    simp only [MinesweeperAI.mark_safe, List.mem_map] at ht
    obtain ⟨s, hs, rfl⟩ := ht
    rw [Sentence.mark_safe_eq]
    have heq : s.cells.erase c ∩ M = s.cells ∩ M := by
      ext x
      simp only [Finset.mem_inter, Finset.mem_erase]
      constructor
      · rintro ⟨⟨_, h1⟩, h2⟩; exact ⟨h1, h2⟩
      · rintro ⟨h1, h2⟩
        refine ⟨⟨?_, h1⟩, h2⟩
        rintro rfl; exact hc h2
    simpa [heq] using hkb s hs

theorem sound_observeSetup {M : Finset Cell} {st : MinesweeperAI} {c : Cell}
    {count : ℤ} (hInv : Sound M st) (hc : c ∉ M)
    (hcount : count = (((nbrs st.height st.width c ∩ M).card : ℕ) : ℤ)) :
    Sound M (st.observeSetup c count) := by
  have h1 : Sound M ({ st with moves_made := insert c st.moves_made }) :=
    ⟨hInv.1, hInv.2.1, hInv.2.2⟩
  have h2 := sound_mark_safe_single h1 hc
  obtain ⟨hsa, hmi, hkb⟩ := h2
  refine ⟨hsa, hmi, ?_⟩
  intro t ht
  simp only [MinesweeperAI.observeSetup, List.mem_append, List.mem_singleton] at ht ⊢
  rcases ht with ht | rfl
  · exact hkb t ht
  · exact hcount

theorem add_knowledge_spec (st : MinesweeperAI) (fuel : ℕ) (c : Cell)
    (count : ℤ) :
    (st.add_knowledge fuel c count).height = st.height ∧
    (st.add_knowledge fuel c count).width = st.width ∧
    (st.add_knowledge fuel c count).moves_made = insert c st.moves_made ∧
    insert c st.safes ⊆ (st.add_knowledge fuel c count).safes ∧
    st.mines ⊆ (st.add_knowledge fuel c count).mines := by
  unfold MinesweeperAI.add_knowledge
  have h := loop_spec fuel (st.observeSetup c count)
  have hsetup : (st.observeSetup c count).height = st.height ∧
      (st.observeSetup c count).width = st.width ∧
      (st.observeSetup c count).moves_made = insert c st.moves_made ∧
      (st.observeSetup c count).safes = insert c st.safes ∧
      (st.observeSetup c count).mines = st.mines := ⟨rfl, rfl, rfl, rfl, rfl⟩
  refine ⟨h.2.1.trans hsetup.1, h.2.2.1.trans hsetup.2.1,
    h.1.trans hsetup.2.2.1, ?_, ?_⟩
  · rw [← hsetup.2.2.2.1]; exact h.2.2.2.1
  · rw [← hsetup.2.2.2.2]; exact h.2.2.2.2

theorem sound_add_knowledge {M : Finset Cell} {st : MinesweeperAI} {c : Cell}
    {count : ℤ} (fuel : ℕ) (hInv : Sound M st) (hc : c ∉ M)
    (hcount : count = (((nbrs st.height st.width c ∩ M).card : ℕ) : ℤ)) :
    Sound M (st.add_knowledge fuel c count) :=
  loop_sound fuel (sound_observeSetup hInv hc hcount)

theorem sound_init (M : Finset Cell) (h w : ℕ) :
    Sound M (MinesweeperAI.init h w) := by
  refine ⟨?_, ?_, ?_⟩
  · simp [MinesweeperAI.init]
  · simp [MinesweeperAI.init]
  · intro s hs
    simp [MinesweeperAI.init] at hs

theorem sound_playout_aux {M : Finset Cell} {h w : ℕ} (fuel : ℕ)
    (obs : List (Cell × ℤ)) :
    ∀ st : MinesweeperAI, Sound M st → st.height = h → st.width = w →
      (∀ o ∈ obs, ConsistentObs h w M o) →
      Sound M (obs.foldl (fun st o => st.add_knowledge fuel o.1 o.2) st) ∧
      (obs.foldl (fun st o => st.add_knowledge fuel o.1 o.2) st).height = h ∧
      (obs.foldl (fun st o => st.add_knowledge fuel o.1 o.2) st).width = w := by
  induction obs with
  | nil => exact fun st hInv hh hw _ => ⟨hInv, hh, hw⟩
  | cons o rest ih =>
    intro st hInv hh hw hobs
    have hco := hobs o (List.mem_cons_self o rest)
    have hInv2 : Sound M (st.add_knowledge fuel o.1 o.2) := by
      refine sound_add_knowledge fuel hInv hco.2 ?_
      rw [hh, hw]
      exact hco.1.2
    have hspec := add_knowledge_spec st fuel o.1 o.2
    exact ih (st.add_knowledge fuel o.1 o.2) hInv2 (hspec.1.trans hh)
      (hspec.2.1.trans hw)
      (fun o' ho' => hobs o' (List.mem_cons_of_mem o ho'))

theorem sound_playout {M : Finset Cell} {h w : ℕ} (fuel : ℕ)
    {obs : List (Cell × ℤ)} (hobs : ∀ o ∈ obs, ConsistentObs h w M o) :
    Sound M (MinesweeperAI.playout h w fuel obs) ∧
    (MinesweeperAI.playout h w fuel obs).height = h ∧
    (MinesweeperAI.playout h w fuel obs).width = w :=
  sound_playout_aux fuel obs (MinesweeperAI.init h w) (sound_init M h w)
    rfl rfl hobs

/- Divergence of the loop on an all-empty knowledge base that contains
sentences with counts 0 and 1: every pass derives a fresh empty sentence
whose count lies strictly below the current minimum, so no pass is ever
quiet.  Such a state is reachable when a mine cell itself is observed
with its true adjacent count (see the C2 counterexample). -/

def AllEmptyKB (st : MinesweeperAI) : Prop :=
  (∀ s ∈ st.knowledge, s.cells = ∅) ∧
    (⟨∅, 0⟩ : Sentence) ∈ st.knowledge ∧ (⟨∅, 1⟩ : Sentence) ∈ st.knowledge

instance (st : MinesweeperAI) : Decidable (AllEmptyKB st) := by
  unfold AllEmptyKB
  infer_instance

theorem allEmpty_getD {st : MinesweeperAI} (h : AllEmptyKB st) (i : ℕ) :
    (st.knowledge.getD i ⟨∅, 0⟩).cells = ∅ := by
  by_contra hne
  have hnonempty : (st.knowledge.getD i ⟨∅, 0⟩).cells.Nonempty :=
    Finset.nonempty_iff_ne_empty.mpr hne
  exact hne (h.1 _ (getD_mem_of_nonempty hnonempty))

theorem allEmpty_markStep {st : MinesweeperAI} (h : AllEmptyKB st) (i : ℕ) :
    st.markStep i = (st, false) := by
  have hs := allEmpty_getD h i
  have hsafe : st.markStepSafe i = (st, false) := by
    unfold MinesweeperAI.markStepSafe
    rw [if_neg]
    intro htr
    rw [setTruthy_known_safes] at htr
    rw [hs] at htr
    exact Finset.not_nonempty_empty htr.2
  unfold MinesweeperAI.markStep
  rw [hsafe]
  unfold MinesweeperAI.markStepMine
  rw [if_neg]
  intro htr
  rw [setTruthy_known_mines] at htr
  have : (st.knowledge.getD i ⟨∅, 0⟩).cells.Nonempty := htr.2
  rw [hs] at this
  exact Finset.not_nonempty_empty this

theorem allEmpty_markPassAux {st : MinesweeperAI} (h : AllEmptyKB st)
    (idxs : List ℕ) : st.markPassAux idxs = (st, false) := by
  induction idxs with
  | nil => rfl
  | cons i rest ih =>
    simp only [MinesweeperAI.markPassAux, allEmpty_markStep h i, ih,
      Bool.or_self]

theorem allEmpty_onePass {st : MinesweeperAI} (h : AllEmptyKB st) :
    (st.onePass).2 = true ∧ AllEmptyKB (st.onePass).1 := by
  have hmark : st.markPhase = (st, false) := allEmpty_markPassAux h _
  -- the least and greatest counts currently present
  have h0 : (0 : ℤ) ∈ st.knowledge.toFinset.image Sentence.count := by
    rw [Finset.mem_image]
    exact ⟨⟨∅, 0⟩, List.mem_toFinset.mpr h.2.1, rfl⟩
  have h1 : (1 : ℤ) ∈ st.knowledge.toFinset.image Sentence.count := by
    rw [Finset.mem_image]
    exact ⟨⟨∅, 1⟩, List.mem_toFinset.mpr h.2.2, rfl⟩
  have hne : (st.knowledge.toFinset.image Sentence.count).Nonempty := ⟨0, h0⟩
  set counts := st.knowledge.toFinset.image Sentence.count with hcounts
  have hmin := Finset.min'_mem counts hne
  have hmax := Finset.max'_mem counts hne
  set a := counts.min' hne with ha
  set b := counts.max' hne with hb
  have hale : a ≤ 0 := Finset.min'_le counts 0 h0
  have hble : 1 ≤ b := Finset.le_max' counts 1 h1
  have hsent : ∀ x ∈ counts, (⟨∅, x⟩ : Sentence) ∈ st.knowledge := by
    intro x hx
    rw [hcounts, Finset.mem_image] at hx
    obtain ⟨s, hskb, rfl⟩ := hx
    have hskb2 := List.mem_toFinset.mp hskb
    have hcells := h.1 s hskb2
    have : s = ⟨∅, s.count⟩ := by
      cases s with
      | mk cells count => simp only at hcells; rw [hcells]
    rw [← this]
    exact hskb2
  have hs1 : (⟨∅, a⟩ : Sentence) ∈ st.knowledge := hsent a hmin
  have hs2 : (⟨∅, b⟩ : Sentence) ∈ st.knowledge := hsent b hmax
  have hne12 : (⟨∅, a⟩ : Sentence) ≠ ⟨∅, b⟩ := by
    intro hcontra
    have : a = b := congrArg Sentence.count hcontra
    omega
  have hderive : derive ⟨∅, a⟩ ⟨∅, b⟩ = ⟨∅, a - b⟩ := by
    unfold derive
    simp
  have hnotin : derive ⟨∅, a⟩ ⟨∅, b⟩ ∉ st.knowledge := by
    rw [hderive]
    intro hmem
    have : a - b ∈ counts := by
      rw [hcounts, Finset.mem_image]
      exact ⟨⟨∅, a - b⟩, List.mem_toFinset.mpr hmem, rfl⟩
    have := Finset.min'_le counts (a - b) this
    omega
  have hmemni : derive ⟨∅, a⟩ ⟨∅, b⟩ ∈ newlyInferred st.knowledge := by
    rw [mem_newlyInferred]
    exact ⟨⟨∅, a⟩, hs1, ⟨∅, b⟩, hs2, hne12, subset_rfl, hnotin, rfl⟩
  have hni : newlyInferred st.knowledge ≠ [] := List.ne_nil_of_mem hmemni
  have honeflag : (st.onePass).2 = true := by
    unfold MinesweeperAI.onePass
    simp only [hmark]
    rw [Bool.or_eq_true]
    exact Or.inr (inferPhase_flag.mpr hni)
  refine ⟨honeflag, ?_, ?_, ?_⟩
  · intro s hskb
    have hkb : (st.onePass).1.knowledge =
        st.knowledge ++ newlyInferred st.knowledge := by
      unfold MinesweeperAI.onePass
      simp only [hmark]
      rfl
    rw [hkb, List.mem_append] at hskb
    rcases hskb with hskb | hskb
    · exact h.1 s hskb
    · rw [mem_newlyInferred] at hskb
      obtain ⟨s1, hs1', _, _, _, _, _, rfl⟩ := hskb
      unfold derive
      simp only []
      rw [h.1 s1 hs1']
      exact Finset.empty_sdiff _
  · unfold MinesweeperAI.onePass
    simp only [hmark]
    exact List.mem_append_left _ h.2.1
  · unfold MinesweeperAI.onePass
    simp only [hmark]
    exact List.mem_append_left _ h.2.2

theorem allEmpty_loop {st : MinesweeperAI} (h : AllEmptyKB st) :
    ∀ n, (MinesweeperAI.loop n st).2 = false := by
  intro n
  induction n generalizing st with
  | zero => rfl
  | succ n ih =>
    obtain ⟨hflag, hinv⟩ := allEmpty_onePass h
    rw [loop_succ, if_pos hflag]
    exact ih hinv

/- Move-selection queries. -/

theorem pickCell_none_iff (s : Finset Cell) : pickCell s = none ↔ s = ∅ := by
  unfold pickCell
  split
  · next h =>
    simp only [reduceCtorEq, false_iff]
    exact Finset.nonempty_iff_ne_empty.mp h
  · next h =>
    simp only [true_iff]
    exact Finset.not_nonempty_iff_eq_empty.mp h

theorem pickCell_mem {s : Finset Cell} {c : Cell} (h : pickCell s = some c) :
    c ∈ s := by
  unfold pickCell at h
  split at h
  · next hne =>
    have hmin := (s.image (fun c => toLex c)).min'_mem (hne.image _)
    rw [Finset.mem_image] at hmin
    obtain ⟨x, hx, hxeq⟩ := hmin
    cases h
    rw [← hxeq]
    simpa using hx
  · cases h

theorem make_safe_move_none_iff (st : MinesweeperAI) :
    st.make_safe_move = none ↔ st.safes \ st.moves_made = ∅ :=
  pickCell_none_iff _

theorem make_safe_move_mem {st : MinesweeperAI} {c : Cell}
    (h : st.make_safe_move = some c) : c ∈ st.safes ∧ c ∉ st.moves_made := by
  have := pickCell_mem h
  rw [Finset.mem_sdiff] at this
  exact this

theorem mem_possible_moves {st : MinesweeperAI} {c : Cell} :
    c ∈ st.possible_moves ↔
      inBounds st.height st.width c ∧ c ∉ st.moves_made ∧ c ∉ st.mines := by
  unfold MinesweeperAI.possible_moves
  rw [List.mem_flatMap]
  constructor
  · rintro ⟨i, hi, hc⟩
    rw [List.mem_range] at hi
    rw [List.mem_filterMap] at hc
    obtain ⟨j, hj, hif⟩ := hc
    rw [List.mem_range] at hj
    split at hif
    · next hcond =>
      have hceq : c = ((i : ℤ), (j : ℤ)) := (Option.some.inj hif).symm
      subst hceq
      refine ⟨⟨Int.natCast_nonneg i, ?_, Int.natCast_nonneg j, ?_⟩, hcond⟩
      · show (i : ℤ) < (st.height : ℤ)
        exact_mod_cast hi
      · show (j : ℤ) < (st.width : ℤ)
        exact_mod_cast hj
    · cases hif
  · rintro ⟨⟨hb1, hb2, hb3, hb4⟩, hmm, hmi⟩
    refine ⟨c.1.toNat, ?_, ?_⟩
    · rw [List.mem_range]; omega
    · rw [List.mem_filterMap]
      refine ⟨c.2.toNat, ?_, ?_⟩
      · rw [List.mem_range]; omega
      · have hc : (((c.1.toNat : ℤ)), ((c.2.toNat : ℤ))) = c := by
          have h1 : (c.1.toNat : ℤ) = c.1 := Int.toNat_of_nonneg hb1
          have h2 : (c.2.toNat : ℤ) = c.2 := Int.toNat_of_nonneg hb3
          cases c
          simp_all
        rw [hc, if_pos ⟨hmm, hmi⟩]

theorem possible_moves_fst {st : MinesweeperAI} {i : ℕ} {c : Cell}
    (h : c ∈ (List.range st.width).filterMap (fun (j : ℕ) =>
      if ((i : ℤ), (j : ℤ)) ∉ st.moves_made ∧ ((i : ℤ), (j : ℤ)) ∉ st.mines
      then some ((i : ℤ), (j : ℤ)) else none)) : c.1 = (i : ℤ) := by
  rw [List.mem_filterMap] at h
  obtain ⟨j, _, hif⟩ := h
  split at hif
  · cases hif; rfl
  · cases hif

theorem possible_moves_nodup (st : MinesweeperAI) :
    st.possible_moves.Nodup := by
  unfold MinesweeperAI.possible_moves
  rw [List.nodup_flatMap]
  constructor
  · intro i _
    refine List.Nodup.filterMap ?_ (List.nodup_range st.width)
    intro a b c hca hcb
    simp only [Option.mem_def] at hca hcb
    split at hca
    · cases hca
      split at hcb
      · have := congrArg Prod.snd (Option.some.inj hcb)
        simpa using this.symm
      · cases hcb
    · cases hca
  · have hpw := List.pairwise_lt_range st.height
    refine hpw.imp ?_
    intro a b hab
    simp only [Function.onFun, List.disjoint_left]
    intro c hca hcb
    have h1 := possible_moves_fst hca
    have h2 := possible_moves_fst hcb
    rw [h1] at h2
    have : a = b := by exact_mod_cast h2
    omega

theorem make_random_move_none_iff (st : MinesweeperAI) (k : ℕ) :
    st.make_random_move k = none ↔ st.possible_moves = [] := by
  unfold MinesweeperAI.make_random_move
  by_cases h : st.possible_moves.isEmpty
  · rw [if_pos h]
    simpa using List.isEmpty_iff.mp h
  · rw [if_neg h]
    simpa using fun hc => h (List.isEmpty_iff.mpr hc)

theorem make_random_move_mem {st : MinesweeperAI} {k : ℕ} {c : Cell}
    (h : st.make_random_move k = some c) : c ∈ st.possible_moves := by
  unfold MinesweeperAI.make_random_move at h
  split at h
  · cases h
  · next hne =>
    cases h
    have hlen : 0 < st.possible_moves.length :=
      List.length_pos.mpr (fun hc => hne (by simp [hc]))
    have hlt : k % st.possible_moves.length < st.possible_moves.length :=
      Nat.mod_lt _ hlen
    rw [List.getD_eq_getElem _ _ hlt]
    exact List.getElem_mem hlt

theorem make_random_move_surj {st : MinesweeperAI} {c : Cell}
    (h : c ∈ st.possible_moves) :
    ∃ k < st.possible_moves.length, st.make_random_move k = some c := by
  obtain ⟨i, hi, hget⟩ := List.mem_iff_getElem.mp h
  refine ⟨i, hi, ?_⟩
  unfold MinesweeperAI.make_random_move
  rw [if_neg (by
    intro hc
    rw [List.isEmpty_iff.mp hc] at hi
    simp at hi)]
  rw [Nat.mod_eq_of_lt hi, List.getD_eq_getElem _ _ hi, hget]

/- Idempotence of the marking methods. -/

theorem Sentence.mark_safe_idem (s : Sentence) (c : Cell) :
    (s.mark_safe c).mark_safe c = s.mark_safe c := by
  rw [Sentence.mark_safe_eq s c, Sentence.mark_safe_eq, Finset.erase_idem]

theorem Sentence.mark_mine_idem (s : Sentence) (c : Cell) :
    (s.mark_mine c).mark_mine c = s.mark_mine c := by
  unfold Sentence.mark_mine
  by_cases h : c ∈ s.cells
  · rw [if_pos h]
    rw [if_neg (by simp)]
  · rw [if_neg h, if_neg h]

theorem engine_mark_safe_idem (st : MinesweeperAI) (c : Cell) :
    (st.mark_safe c).mark_safe c = st.mark_safe c := by
  unfold MinesweeperAI.mark_safe
  simp only [MinesweeperAI.mk.injEq, Finset.insert_idem, List.map_map,
    true_and]
  apply List.map_congr_left
  intro s _
  exact Sentence.mark_safe_idem s c

theorem engine_mark_mine_idem (st : MinesweeperAI) (c : Cell) :
    (st.mark_mine c).mark_mine c = st.mark_mine c := by
  unfold MinesweeperAI.mark_mine
  simp only [MinesweeperAI.mk.injEq, Finset.insert_idem, List.map_map,
    true_and]
  apply List.map_congr_left
  intro s _
  exact Sentence.mark_mine_idem s c

/- Claim theorems. -/

/-- C1 (counterexample): on the 3x3 board with the single mine at (2,2),
one completed add_knowledge((0,0), 0) call does NOT place all 8 remaining
cells except (2,2) into the known-safe set: the cell (0,2) is not in it.
The observation is in bounds with the true adjacent-mine count, and the
done flag certifies that fuel 2 reaches the loop's fixed point, so this
is the state the Python call returns. -/
theorem c1_counterexample :
    TrueCountObs 3 3 {((2 : ℤ), (2 : ℤ))} ((0, 0), 0) ∧
    (MinesweeperAI.init 3 3).add_knowledge_done 2 (0, 0) 0 = true ∧
    ((0, 2) : Cell) ∉ ((MinesweeperAI.init 3 3).add_knowledge 2 (0, 0) 0).safes := by
  decide

/-- C1 (amended): on the 3x3 board with the single mine at (2,2), one
add_knowledge((0,0), 0) call places exactly (0,0) and its three in-bounds
neighbours (0,1), (1,0), (1,1) into the known-safe set ((2,2) is not
among them), and make_safe_move then returns the unplayed known-safe
cell (0,1), which is one of the 7 unplayed cells other than (2,2). -/
theorem c1_amended_scenario :
    ∀ fuel : ℕ, 2 ≤ fuel →
      ((MinesweeperAI.init 3 3).add_knowledge fuel (0, 0) 0).safes
          = {(0, 0), (0, 1), (1, 0), (1, 1)} ∧
      ((2, 2) : Cell) ∉
          ((MinesweeperAI.init 3 3).add_knowledge fuel (0, 0) 0).safes ∧
      ((MinesweeperAI.init 3 3).add_knowledge fuel (0, 0) 0).make_safe_move
          = some (0, 1) ∧
      ((0, 1) : Cell) ∈
          ((MinesweeperAI.init 3 3).add_knowledge fuel (0, 0) 0).safes ∧
      ((0, 1) : Cell) ∉
          ((MinesweeperAI.init 3 3).add_knowledge fuel (0, 0) 0).moves_made ∧
      inBounds 3 3 (0, 1) ∧ ((0, 1) : Cell) ≠ (2, 2) := by
  intro fuel hf
  have hdone : (MinesweeperAI.loop 2
      ((MinesweeperAI.init 3 3).observeSetup (0, 0) 0)).2 = true := by decide
  have heq : (MinesweeperAI.init 3 3).add_knowledge fuel (0, 0) 0
      = (MinesweeperAI.init 3 3).add_knowledge 2 (0, 0) 0 := by
    unfold MinesweeperAI.add_knowledge
    rw [loop_done_stable hdone fuel hf]
  rw [heq]
  exact ⟨by decide, by decide, by decide, by decide, by decide, by decide,
    by decide⟩

theorem c1_amended_scenario_witness :
    2 ≤ 2 ∧
    ((MinesweeperAI.init 3 3).add_knowledge 2 (0, 0) 0).make_safe_move
      = some (0, 1) :=
  ⟨le_rfl, (c1_amended_scenario 2 le_rfl).2.2.1⟩

/-- C2 (counterexample): the claim only requires the reported counts to
be the true adjacent-mine counts of some placement, which lets a mine
cell itself be observed.  On the 2x2 board with mine placement {(1,1)},
after the completed call add_knowledge((0,0), 1), the second call
add_knowledge((1,1), 0) never terminates: its deduction loop derives an
endless stream of fresh empty sentences with new counts, so no amount of
fuel reaches a quiet pass.  Both observations carry true counts. -/
theorem c2_counterexample :
    TrueCountObs 2 2 {((1 : ℤ), (1 : ℤ))} ((0, 0), 1) ∧
    TrueCountObs 2 2 {((1 : ℤ), (1 : ℤ))} ((1, 1), 0) ∧
    (MinesweeperAI.init 2 2).add_knowledge_done 2 (0, 0) 1 = true ∧
    ¬ ∃ n, ((MinesweeperAI.init 2 2).add_knowledge 2 (0, 0) 1).add_knowledge_done
        n (1, 1) 0 = true := by
  refine ⟨by decide, by decide, by decide, ?_⟩
  rintro ⟨n, hn⟩
  unfold MinesweeperAI.add_knowledge_done at hn
  cases n with
  | zero => exact Bool.false_ne_true hn
  | succ n =>
    rw [loop_succ] at hn
    have hflag : ((((MinesweeperAI.init 2 2).add_knowledge 2 (0, 0) 1).observeSetup
        (1, 1) 0).onePass).2 = true := by decide
    rw [if_pos hflag] at hn
    have hae : AllEmptyKB ((((MinesweeperAI.init 2 2).add_knowledge 2 (0, 0) 1).observeSetup
        (1, 1) 0).onePass).1 := by decide
    rw [allEmpty_loop hae n] at hn
    exact Bool.false_ne_true hn

/-- C2 (amended): for every board size, every mine placement, and every
sequence of in-bounds observations of NON-MINE cells whose reported
counts are the true adjacent-mine counts of the placement, every
add_knowledge call terminates: some finite fuel reaches a pass that
reports nothing new and appends nothing, and the call returns. -/
theorem c2_amended_termination (h w : ℕ) (M : Finset Cell) (fuel : ℕ)
    (obs : List (Cell × ℤ)) (c : Cell) (cnt : ℤ)
    (hobs : ∀ o ∈ obs, ConsistentObs h w M o)
    (hnext : ConsistentObs h w M (c, cnt)) :
    ∃ n, (MinesweeperAI.playout h w fuel obs).add_knowledge_done n c cnt
      = true := by
  obtain ⟨hInv, hh, hw⟩ := sound_playout fuel hobs
  have hsetup : Sound M ((MinesweeperAI.playout h w fuel obs).observeSetup c cnt) := by
    refine sound_observeSetup hInv hnext.2 ?_
    rw [hh, hw]
    exact hnext.1.2
  exact loop_terminates hsetup

theorem c2_amended_termination_witness :
    (∀ o ∈ ([] : List (Cell × ℤ)), ConsistentObs 1 1 ∅ o) ∧
    ConsistentObs 1 1 ∅ ((0, 0), 0) ∧
    ∃ n, (MinesweeperAI.playout 1 1 1 []).add_knowledge_done n (0, 0) 0
      = true :=
  ⟨fun o ho => absurd ho (List.not_mem_nil o), by decide,
   c2_amended_termination 1 1 ∅ 1 [] (0, 0) 0
     (fun o ho => absurd ho (List.not_mem_nil o)) (by decide)⟩

/-- C3: for every ordered pair of distinct sentences (A, B) in the
knowledge base with B.cells a subset of A.cells, the resolution scan
derives the sentence (A.cells minus B.cells, A.count minus B.count), and
appends it when it is not already present; concretely, from
{(1,1),(1,2),(2,1)} = 1 and {(1,1),(1,2)} = 1 it derives {(2,1)} = 0,
and the fixpoint loop then puts (2,1) into the known-safe set. -/
theorem c3_subset_resolution :
    (∀ (kb : List Sentence) (A B : Sentence), A ∈ kb → B ∈ kb → A ≠ B →
        B.cells ⊆ A.cells →
        derive A B = ⟨A.cells \ B.cells, A.count - B.count⟩ ∧
        (derive A B ∉ kb → derive A B ∈ newlyInferred kb)) ∧
    derive ⟨{(1, 1), (1, 2), (2, 1)}, 1⟩ ⟨{(1, 1), (1, 2)}, 1⟩
        = ⟨{(2, 1)}, 0⟩ ∧
    newlyInferred [⟨{(1, 1), (1, 2), (2, 1)}, 1⟩, ⟨{(1, 1), (1, 2)}, 1⟩]
        = [⟨{(2, 1)}, 0⟩] ∧
    (MinesweeperAI.loop 3 ⟨3, 3, ∅, ∅, ∅,
        [⟨{(1, 1), (1, 2), (2, 1)}, 1⟩, ⟨{(1, 1), (1, 2)}, 1⟩]⟩).2 = true ∧
    ((2, 1) : Cell) ∈ (MinesweeperAI.loop 3 ⟨3, 3, ∅, ∅, ∅,
        [⟨{(1, 1), (1, 2), (2, 1)}, 1⟩, ⟨{(1, 1), (1, 2)}, 1⟩]⟩).1.safes := by
  refine ⟨?_, by decide, by decide, by decide, by decide⟩
  intro kb A B hA hB hne hsub
  refine ⟨rfl, fun hnotin => ?_⟩
  rw [mem_newlyInferred]
  exact ⟨A, hA, B, hB, hne, hsub, hnotin, rfl⟩

theorem c3_subset_resolution_witness :
    derive ⟨{((1:ℤ), (1:ℤ)), (1, 2), (2, 1)}, 1⟩ ⟨{(1, 1), (1, 2)}, 1⟩
      ∈ newlyInferred
        [⟨{((1:ℤ), (1:ℤ)), (1, 2), (2, 1)}, 1⟩, ⟨{(1, 1), (1, 2)}, 1⟩] :=
  (c3_subset_resolution.1 _ _ _ (by decide) (by decide) (by decide)
    (by decide)).2 (by decide)

/-- C4 (counterexample): the knowledge base CAN hold two equal sentences
after an add_knowledge call: on a 1x1 board, observing (0,0) with count 0
twice appends the empty sentence twice (the per-observation append of
step 3 is unconditional), so the knowledge base is [{} = 0, {} = 0] and
fails Nodup; both calls reach their fixed point with the given fuel. -/
theorem c4_counterexample :
    (MinesweeperAI.init 1 1).add_knowledge_done 1 (0, 0) 0 = true ∧
    ((MinesweeperAI.init 1 1).add_knowledge 1 (0, 0) 0).add_knowledge_done
        1 (0, 0) 0 = true ∧
    (((MinesweeperAI.init 1 1).add_knowledge 1 (0, 0) 0).add_knowledge
        1 (0, 0) 0).knowledge = [⟨∅, 0⟩, ⟨∅, 0⟩] ∧
    ¬ (((MinesweeperAI.init 1 1).add_knowledge 1 (0, 0) 0).add_knowledge
        1 (0, 0) 0).knowledge.Nodup := by
  decide

/-- C4 (amended): during subset resolution a newly derived sentence is
kept only if no sentence with the same cell set and count is already in
the knowledge base at the time of the scan; the base may nevertheless
come to hold equal sentences (unconditional observation appends, and
equal sentences derived in the same scan). -/
theorem c4_amended_dedup :
    ∀ (kb : List Sentence) (t : Sentence), t ∈ newlyInferred kb → t ∉ kb := by
  intro kb t ht
  rw [mem_newlyInferred] at ht
  obtain ⟨s1, _, s2, _, _, _, hnotin, rfl⟩ := ht
  exact hnotin

theorem c4_amended_dedup_witness :
    (⟨{((0:ℤ), (1:ℤ))}, 0⟩ : Sentence) ∉
      [(⟨{(0, 0), (0, 1)}, 1⟩ : Sentence), ⟨{(0, 0)}, 1⟩] :=
  c4_amended_dedup _ _ (by decide)

/-- C5 (counterexample): with only the requirement that counts be the
true adjacent-mine counts, the mine cell itself may be observed, and then
the known-mine and known-safe sets intersect: on the 2x1 board with mine
(1,0), observing (0,0) with count 1 marks (1,0) a mine, and then
observing (1,0) with count 0 marks it safe, so mines and safes share
(1,0) after a completed call. -/
theorem c5_counterexample :
    TrueCountObs 2 1 {((1 : ℤ), (0 : ℤ))} ((0, 0), 1) ∧
    TrueCountObs 2 1 {((1 : ℤ), (0 : ℤ))} ((1, 0), 0) ∧
    (MinesweeperAI.init 2 1).add_knowledge_done 2 (0, 0) 1 = true ∧
    ((MinesweeperAI.init 2 1).add_knowledge 2 (0, 0) 1).add_knowledge_done
        2 (1, 0) 0 = true ∧
    (((MinesweeperAI.init 2 1).add_knowledge 2 (0, 0) 1).add_knowledge
          2 (1, 0) 0).mines
        ∩ (((MinesweeperAI.init 2 1).add_knowledge 2 (0, 0) 1).add_knowledge
          2 (1, 0) 0).safes ≠ ∅ := by
  decide

/-- C5 (amended): for every sequence of in-bounds observations of
NON-MINE cells whose counts are the true adjacent-mine counts of a fixed
placement, after every add_knowledge call the known-mine set and the
known-safe set are disjoint. -/
theorem c5_amended_disjoint (h w : ℕ) (M : Finset Cell) (fuel : ℕ)
    (obs : List (Cell × ℤ)) (hobs : ∀ o ∈ obs, ConsistentObs h w M o) :
    (MinesweeperAI.playout h w fuel obs).mines
      ∩ (MinesweeperAI.playout h w fuel obs).safes = ∅ := by
  obtain ⟨⟨hsa, hmi, _⟩, _, _⟩ := sound_playout fuel hobs
  ext x
  simp only [Finset.mem_inter, Finset.not_mem_empty, iff_false]
  rintro ⟨hxm, hxs⟩
  have hx : x ∈ (MinesweeperAI.playout h w fuel obs).safes ∩ M :=
    Finset.mem_inter.mpr ⟨hxs, hmi hxm⟩
  rw [hsa] at hx
  exact absurd hx (Finset.not_mem_empty x)

theorem c5_amended_disjoint_witness :
    (∀ o ∈ [((((0:ℤ), (0:ℤ))), (0:ℤ))], ConsistentObs 1 1 ∅ o) ∧
    (MinesweeperAI.playout 1 1 2 [((0, 0), 0)]).mines
      ∩ (MinesweeperAI.playout 1 1 2 [((0, 0), 0)]).safes = ∅ :=
  ⟨by decide, c5_amended_disjoint 1 1 ∅ 2 [((0, 0), 0)] (by decide)⟩

/-- C6: known_mines returns the cell set exactly when count equals the
number of cells and otherwise none; known_safes returns the cell set
exactly when count is 0 and otherwise none; the empty sentence with
count 0 yields the empty set; {(0,0),(0,1)} = 2 yields its whole cell
set as known mines. -/
theorem c6_known_extraction :
    ∀ s : Sentence,
      (s.count = (s.cells.card : ℤ) → s.known_mines = some s.cells) ∧
      (s.count ≠ (s.cells.card : ℤ) → s.known_mines = none) ∧
      (s.count = 0 → s.known_safes = some s.cells) ∧
      (s.count ≠ 0 → s.known_safes = none) ∧
      Sentence.known_mines ⟨∅, 0⟩ = some ∅ ∧
      Sentence.known_mines ⟨{((0:ℤ), (0:ℤ)), ((0:ℤ), (1:ℤ))}, 2⟩
          = some {((0:ℤ), (0:ℤ)), ((0:ℤ), (1:ℤ))} := by
  intro s
  refine ⟨?_, ?_, ?_, ?_, by decide, by decide⟩
  · intro h
    unfold Sentence.known_mines
    rw [if_pos h]
  · intro h
    unfold Sentence.known_mines
    rw [if_neg h]
  · intro h
    unfold Sentence.known_safes
    rw [if_pos h]
  · intro h
    unfold Sentence.known_safes
    rw [if_neg h]

theorem c6_known_extraction_witness :
    Sentence.known_safes ⟨{((0:ℤ), (0:ℤ))}, 1⟩ = none :=
  (c6_known_extraction ⟨{((0:ℤ), (0:ℤ))}, 1⟩).2.2.2.1 (by decide)

/-- C7: marking a cell safe twice leaves the whole engine state (safes,
mines, moves_made and every sentence) exactly as marking it once, and
likewise for marking a mine. -/
theorem c7_idempotence :
    ∀ (st : MinesweeperAI) (c : Cell),
      (st.mark_safe c).mark_safe c = st.mark_safe c ∧
      (st.mark_mine c).mark_mine c = st.mark_mine c :=
  fun st c => ⟨engine_mark_safe_idem st c, engine_mark_mine_idem st c⟩

/-- C8: make_random_move, with the random draw modelled by an index into
the candidate list, returns none exactly when no board cell is outside
moves_made and mines; every returned cell is such a candidate; the
candidate list contains exactly those cells, without duplicates, and
every candidate is returned for some index (so a uniform index yields a
uniform choice); and an engine whose known-safe set equals moves_made
and whose other board cells are all known mines gets none from both
make_safe_move and make_random_move. -/
theorem c8_random_move :
    ∀ (st : MinesweeperAI) (k : ℕ),
      (st.make_random_move k = none ↔ st.possible_moves = []) ∧
      (∀ c, st.make_random_move k = some c →
        inBounds st.height st.width c ∧ c ∉ st.moves_made ∧ c ∉ st.mines) ∧
      (∀ c, c ∈ st.possible_moves ↔
        inBounds st.height st.width c ∧ c ∉ st.moves_made ∧ c ∉ st.mines) ∧
      st.possible_moves.Nodup ∧
      (∀ c ∈ st.possible_moves, ∃ j < st.possible_moves.length,
        st.make_random_move j = some c) ∧
      (st.safes = st.moves_made →
        (∀ c, inBounds st.height st.width c → c ∉ st.moves_made →
          c ∈ st.mines) →
        st.make_safe_move = none ∧ st.make_random_move k = none) := by
  intro st k
  refine ⟨make_random_move_none_iff st k, ?_, fun c => mem_possible_moves,
    possible_moves_nodup st, fun c hc => make_random_move_surj hc, ?_⟩
  · intro c h
    exact mem_possible_moves.mp (make_random_move_mem h)
  · intro hsm hrest
    constructor
    · rw [make_safe_move_none_iff, hsm, Finset.sdiff_self]
    · rw [make_random_move_none_iff, List.eq_nil_iff_forall_not_mem]
      intro c hc
      rw [mem_possible_moves] at hc
      exact hc.2.2 (hrest c hc.1 hc.2.1)

theorem c8_random_move_witness :
    (⟨1, 2, {((0:ℤ), (0:ℤ))}, {((0:ℤ), (1:ℤ))}, {((0:ℤ), (0:ℤ))}, []⟩ :
        MinesweeperAI).make_safe_move = none ∧
    (⟨1, 2, {((0:ℤ), (0:ℤ))}, {((0:ℤ), (1:ℤ))}, {((0:ℤ), (0:ℤ))}, []⟩ :
        MinesweeperAI).make_random_move 0 = none :=
  (c8_random_move _ 0).2.2.2.2.2 rfl (by
    intro c hib hnm
    obtain ⟨x, y⟩ := c
    obtain ⟨h1, h2, h3, h4⟩ := hib
    dsimp only at h1 h2 h3 h4
    have hx : x = 0 := by omega
    have hy : y = 0 ∨ y = 1 := by omega
    subst hx
    rcases hy with rfl | rfl
    · exact absurd (Finset.mem_singleton_self _) hnm
    · exact Finset.mem_singleton_self _)

/-- C9: make_safe_move and make_random_move leave the entire engine state
unchanged (the call wrappers return the input state), and each reads only
the documented components: make_safe_move depends only on safes and
moves_made, make_random_move only on the board size, moves_made and
mines. -/
theorem c9_queries_pure :
    ∀ (st : MinesweeperAI) (k : ℕ),
      (st.make_safe_move_call).2 = st ∧
      (st.make_random_move_call k).2 = st ∧
      (st.make_safe_move_call).1 = st.make_safe_move ∧
      (st.make_random_move_call k).1 = st.make_random_move k ∧
      (∀ st' : MinesweeperAI, st'.safes = st.safes →
        st'.moves_made = st.moves_made →
        st'.make_safe_move = st.make_safe_move) ∧
      (∀ st' : MinesweeperAI, st'.height = st.height → st'.width = st.width →
        st'.moves_made = st.moves_made → st'.mines = st.mines →
        st'.make_random_move k = st.make_random_move k) := by
  intro st k
  refine ⟨rfl, rfl, rfl, rfl, ?_, ?_⟩
  · intro st' h1 h2
    unfold MinesweeperAI.make_safe_move
    rw [h1, h2]
  · intro st' h1 h2 h3 h4
    unfold MinesweeperAI.make_random_move MinesweeperAI.possible_moves
    rw [h1, h2, h3, h4]

theorem c9_queries_pure_witness :
    ((MinesweeperAI.init 1 1).make_safe_move_call).2 = MinesweeperAI.init 1 1 ∧
    (⟨1, 1, ∅, {((5:ℤ), (5:ℤ))}, ∅, []⟩ : MinesweeperAI).make_safe_move
      = (MinesweeperAI.init 1 1).make_safe_move :=
  ⟨(c9_queries_pure (MinesweeperAI.init 1 1) 0).1,
   (c9_queries_pure (MinesweeperAI.init 1 1) 0).2.2.2.2.1 _ rfl rfl⟩

/-- C10: in every state reachable from a fresh engine by add_knowledge,
mark_mine, mark_safe and the (state-preserving) move queries, the set of
moves made is contained in the known-safe set. -/
theorem c10_moves_subset_safes :
    ∀ (h w : ℕ) (st : MinesweeperAI), Reachable h w st →
      st.moves_made ⊆ st.safes := by
  intro h w st hr
  induction hr with
  | init => exact subset_rfl
  | add st fuel c count hr ih =>
    have hspec := add_knowledge_spec st fuel c count
    rw [hspec.2.2.1]
    exact (Finset.insert_subset_insert c ih).trans hspec.2.2.2.1
  | mine st c hr ih => exact ih
  | safe st c hr ih => exact ih.trans (Finset.subset_insert c st.safes)

theorem c10_moves_subset_safes_witness :
    (MinesweeperAI.init 2 2).moves_made ⊆ (MinesweeperAI.init 2 2).safes :=
  c10_moves_subset_safes 2 2 (MinesweeperAI.init 2 2) Reachable.init
